import Mathlib

/-!
Verification of the real-time audio core of the `hard_kick_sampler` repository.

The Rust source is shallowly embedded in Lean 4:

* `f32` values are modelled as rationals (`ℚ`); the arithmetic performed by the
  claims under scrutiny is exact in `f32` wherever exactness is claimed
  (assignments, multiplications by 0, snaps to constants), so ideal rational
  arithmetic is a faithful model of the control flow and of the claimed
  identities.  The one place where `f32` non-finiteness matters
  (`get_blend_value`'s division by a zero width) is modelled explicitly with an
  `Option`, mirroring the source's `is_finite` check.
* Rust's `as usize` cast on a non-negative float truncates; this is modelled by
  `ratToUsize` (truncation toward zero, saturating at 0 for negative inputs;
  saturation at `usize::MAX` is not modelled, no claim approaches it).
* Stateful methods (`&mut self`) become functions returning the new state,
  together with the returned value where there is one.
* The few items the snapshot references but does not contain under `src/`
  (`MultiChannelAdsr::reset`, `utils::load_smooth_param`, the `BlendGroup`
  parameter enum, the `start_offset` parameter) are modelled from the
  specification; each such definition says so in its doc comment.
* The `f32::powf` intrinsic is external to the repository; it is modelled as an
  uninterpreted function parameter `powf : ℚ → ℚ` standing for `x ↦ 2.0f32.powf x`.
-/

/-- The five envelope stages of `AdsrStage` in `src/adsr.rs`. -/
inductive AdsrStage where
  | Idle
  | Attack
  | Decay
  | Sustain
  | Release
deriving DecidableEq, Repr

/-- State of `MultiChannelAdsr` in `src/adsr.rs`: sample rate, progress inside
the current stage (a sample count), the value computed by the last call, and
the current stage. -/
structure MultiChannelAdsr where
  sample_rate : ℚ
  stage_progress : ℚ
  current_value : ℚ
  stage : AdsrStage
deriving DecidableEq, Repr

namespace MultiChannelAdsr

/-- `MultiChannelAdsr::new` in `src/adsr.rs`. -/
def new (sample_rate : ℚ) : MultiChannelAdsr :=
  { sample_rate := sample_rate
    stage_progress := 0
    current_value := 0
    stage := AdsrStage.Idle }

/-- `MultiChannelAdsr::note_on`: unconditionally enter Attack with progress 0. -/
def note_on (a : MultiChannelAdsr) : MultiChannelAdsr :=
  { a with stage := AdsrStage.Attack, stage_progress := 0 }

/-- `MultiChannelAdsr::note_off`: enter Release with progress 0 unless Idle. -/
def note_off (a : MultiChannelAdsr) : MultiChannelAdsr :=
  if a.stage = AdsrStage.Idle then a
  else { a with stage := AdsrStage.Release, stage_progress := 0 }

/-- `MultiChannelAdsr::is_idling`. -/
def is_idling (a : MultiChannelAdsr) : Bool :=
  a.stage = AdsrStage.Idle

/-- `MultiChannelAdsr::next` in `src/adsr.rs` (lines 108-162): advance the
envelope by one sample.  The Rust method mutates `self` and returns
`self.current_value`; here the whole new state is returned, the returned value
being the `current_value` field of the result. -/
def next (a : MultiChannelAdsr) (attack decay sustain release : ℚ) :
    MultiChannelAdsr :=
  match a.stage with
  | AdsrStage.Idle =>
      { a with current_value := 0 }
  | AdsrStage.Attack =>
      let attack_samples := attack * a.sample_rate
      if a.stage_progress ≥ attack_samples then
        { a with
            current_value := 1
            stage := if decay > 0 then AdsrStage.Decay else AdsrStage.Sustain
            stage_progress := 0 }
      else
        { a with
            current_value := a.stage_progress / attack_samples
            stage_progress := a.stage_progress + 1 }
  | AdsrStage.Decay =>
      let decay_samples := decay * a.sample_rate
      if a.stage_progress ≥ decay_samples then
        { a with
            current_value := sustain
            stage := AdsrStage.Sustain
            stage_progress := 0 }
      else
        let progress := a.stage_progress / decay_samples
        { a with
            current_value := 1 - progress * (1 - sustain)
            stage_progress := a.stage_progress + 1 }
  | AdsrStage.Sustain =>
      { a with current_value := sustain }
  | AdsrStage.Release =>
      let release_samples := release * a.sample_rate
      if a.stage_progress ≥ release_samples then
        { a with
            current_value := 0
            stage := AdsrStage.Idle
            stage_progress := 0 }
      else
        let progress := a.stage_progress / release_samples
        { a with
            current_value := sustain * (1 - progress)
            stage_progress := a.stage_progress + 1 }

/-- `MultiChannelAdsr::next_value` in `src/adsr.rs` (lines 177-191): a
non-first channel only reads `current_value`; the first channel advances via
`next`.  Returns the pair (returned value, new state). -/
def next_value (a : MultiChannelAdsr) (attack decay sustain release : ℚ)
    (is_first_channel : Bool) : ℚ × MultiChannelAdsr :=
  if !is_first_channel then
    (a.current_value, a)
  else
    let a' := a.next attack decay sustain release
    (a'.current_value, a')

/-- Modelled from the spec: `MultiChannelAdsr::reset` is called by
`SamplePlayer` (src/sample_wrapper.rs) but is missing from `src/adsr.rs` in
this snapshot.  Per §4.4/§7 of the spec the reset "resets note state and ADSR
to Idle", i.e. back to the state `new` starts in (sample rate kept). -/
def reset (a : MultiChannelAdsr) : MultiChannelAdsr :=
  { a with stage := AdsrStage.Idle, stage_progress := 0, current_value := 0 }

/-- One first-channel `next_value` call, viewed as a state transformer: the
state component of `next_value ... true`. -/
def step (attack decay sustain release : ℚ) (a : MultiChannelAdsr) :
    MultiChannelAdsr :=
  a.next attack decay sustain release

end MultiChannelAdsr

/-- Rust `as i64`-style truncation toward zero of a rational (the rounding
`f32 as usize` performs before saturating below at 0). -/
def ratTrunc (x : ℚ) : ℤ :=
  if x < 0 then ⌈x⌉ else ⌊x⌋

/-- Rust `f32 as usize`: truncate toward zero, saturate at 0 for negative
inputs (saturation at `usize::MAX` is not modelled). -/
def ratToUsize (x : ℚ) : ℕ :=
  (ratTrunc x).toNat

/-- Rust `f32::fract`: `self - self.trunc()`. -/
def ratFract (x : ℚ) : ℚ :=
  x - ratTrunc x

/-- `utils::interpolate` in `src/utils.rs` (line 39): `v1*(1-f) + v2*f`. -/
def interpolate (v1 v2 fraction : ℚ) : ℚ :=
  v1 * (1 - fraction) + v2 * fraction

/-- `utils::clipping_sub` in `src/utils.rs` (lines 131-137). -/
def clipping_sub (lhs rhs : ℕ) : Option ℕ :=
  if lhs ≥ rhs then some (lhs - rhs) else none

/-- `utils::get_stretch_playback_position` in `src/utils.rs` (lines 161-177):
returns `(sample_index, fraction)` where `sample_index = frame_index *
num_channels + channel_index`, `frame_index = pitched_position as usize`,
`fraction = pitched_position.fract()`, and `pitched_position = playback_rate *
(process_count * sr_correction)`. -/
def get_stretch_playback_position (process_count sr_correction playback_rate : ℚ)
    (num_channels channel_index : ℕ) : ℕ × ℚ :=
  let raw_playback_position := process_count * sr_correction
  let pitched_position := playback_rate * raw_playback_position
  let frame_index := ratToUsize pitched_position
  let fraction := ratFract pitched_position
  let sample_index := frame_index * num_channels + channel_index
  (sample_index, fraction)

/-- Modelled from the spec: the `BlendGroup` enum lives in `src/params.rs` in
the full repository but the snapshot's `params.rs` predates it; §3 of the spec
gives the blend role as `role ∈ {None, Start, End}`. -/
inductive BlendGroup where
  | None
  | Start
  | End
deriving DecidableEq, Repr

/-- `utils::get_blend_value` in `src/utils.rs` (lines 179-221).  The raw gain
is computed as `Option ℚ`, where `none` models an `f32` non-finite result: the
only non-finite value the source arithmetic can produce from finite inputs is
the division by a zero `blend_transition` (`0/0` or `x/0`).  The final match
mirrors `if !value.is_finite() { 1. } else { value.clamp(0., 1.) }`. -/
def get_blend_value (group : BlendGroup) (current_time blend_time blend_transition : ℚ) : ℚ :=
  let value : Option ℚ :=
    match group with
    | BlendGroup.None => some 1
    | BlendGroup.Start =>
        let blend_start := blend_time - blend_transition / 2
        let blend_end := blend_start + blend_transition
        if current_time < blend_start then some 1
        else if current_time > blend_end then some 0
        else if blend_transition = 0 then none
        else some ((blend_end - current_time) / blend_transition)
    | BlendGroup.End =>
        let blend_start := blend_time - blend_transition / 2
        let blend_end := blend_start + blend_transition
        if current_time < blend_start then some 0
        else if current_time > blend_end then some 1
        else if blend_transition = 0 then none
        else some ((current_time - blend_start) / blend_transition)
  match value with
  | none => 1
  | some v => min (max v 0) 1

/-- State of `ClassicShifter` in `src/pitch_shift/classic.rs`. -/
structure ClassicShifter where
  sample_buffer : Option (List ℚ)
  channel_number : ℕ
  sample_rate : ℚ
  playback_rate : ℚ
  sr_correction : ℚ
  is_loaded : Bool
deriving DecidableEq, Repr

namespace ClassicShifter

/-- `ClassicShifter::new`. -/
def new : ClassicShifter :=
  { sample_buffer := none
    channel_number := 0
    sample_rate := 0
    playback_rate := 1
    sr_correction := 1
    is_loaded := false }

/-- `ClassicShifter::clear_sample`. -/
def clear_sample (_s : ClassicShifter) : ClassicShifter :=
  new

/-- `ClassicShifter::load_sample`. -/
def load_sample (s : ClassicShifter) (sample_buffer : List ℚ)
    (channel_number : ℕ) (sample_rate : ℚ) : ClassicShifter :=
  { s with
      sample_buffer := some sample_buffer
      channel_number := channel_number
      sample_rate := sample_rate
      is_loaded := true }

/-- `ClassicShifter::trigger`: records the correction and rate only. -/
def trigger (s : ClassicShifter) (sr_correction playback_rate : ℚ) : ClassicShifter :=
  { s with sr_correction := sr_correction, playback_rate := playback_rate }

/-- `ClassicShifter::ready` (src/pitch_shift/classic.rs lines 67-69). -/
def ready (s : ClassicShifter) : Bool :=
  s.is_loaded && s.sample_buffer.isSome

/-- `ClassicShifter::get_playback_position` (delegates to
`utils::get_stretch_playback_position`). -/
def get_playback_position (s : ClassicShifter) (process_count : ℚ)
    (channel_index : ℕ) : ℕ × ℚ :=
  get_stretch_playback_position process_count s.sr_correction s.playback_rate
    s.channel_number channel_index

/-- `ClassicShifter::interpolate`: `current + (next - current) * fraction`. -/
def interp (current next fraction : ℚ) : ℚ :=
  current + (next - current) * fraction

/-- `ClassicShifter::get_frame` (src/pitch_shift/classic.rs lines 71-97): one
linearly interpolated value per channel; a channel whose current sample is
missing aborts the whole frame with `None`. -/
def get_frame (s : ClassicShifter) (position : ℚ) : Option (List ℚ) :=
  s.sample_buffer.bind fun buffer =>
    (List.range s.channel_number).mapM fun channel_index =>
      let pos := s.get_playback_position position channel_index
      let sample_index := pos.1
      let fraction := pos.2
      match buffer.get? sample_index, buffer.get? (sample_index + s.channel_number) with
      | some current, some next => some (interp current next fraction)
      | some current, none => some current
      | none, _ => none

/-- `ClassicShifter::get_position`. -/
def get_position (s : ClassicShifter) (position : ℚ) : ℚ :=
  s.sr_correction * position * s.playback_rate

end ClassicShifter

/-- `FrameOutput` in `src/pitch_shift/mod.rs`. -/
inductive FrameOutput where
  | Mono (x : ℚ)
  | Stereo (x y : ℚ)
  | Unsupported
deriving DecidableEq, Repr

/-- `impl From<Vec<f32>> for FrameOutput` in `src/pitch_shift/mod.rs`. -/
def frameOutputOfList (value : List ℚ) : FrameOutput :=
  match value with
  | [x] => FrameOutput.Mono x
  | [x, y] => FrameOutput.Stereo x y
  | _ => FrameOutput.Unsupported

/-- State of `PsolaShifter` in `src/pitch_shift/psola.rs`.  The tdpsola
analysis/synthesis objects are external-crate state; what `get_frame` and
`ready` consume is captured exactly: `iter_samples` is the precomputed
synthesized stream per channel (`Option<Vec<Vec<f32>>>`), plus the scalar
fields of the struct. -/
structure PsolaShifter where
  iter_samples : Option (List (List ℚ))
  source_length : ℚ
  is_loaded : Bool
  sr_correction : ℚ
  playback_rate : ℚ
deriving DecidableEq, Repr

namespace PsolaShifter

/-- `PsolaShifter::ready` (src/pitch_shift/psola.rs lines 141-143). -/
def ready (s : PsolaShifter) : Bool :=
  s.is_loaded && s.iter_samples.isSome

/-- `PsolaShifter::get_frame` (src/pitch_shift/psola.rs lines 145-156): each
channel's synthesized stream is read at index `(position * sr_correction) as
usize`; the per-channel `Option`s are collected, so one out-of-range channel
yields `None`; the collected frame is converted through `FrameOutput::from`. -/
def get_frame (s : PsolaShifter) (position : ℚ) : Option FrameOutput :=
  (s.iter_samples.bind fun chans =>
    chans.mapM fun channels =>
      channels.get? (ratToUsize (position * s.sr_correction))).map
    frameOutputOfList

/-- `PsolaShifter::get_position`. -/
def get_position (s : PsolaShifter) (position : ℚ) : ℚ :=
  s.sr_correction * position

/-- Follows the spec's words, for comparison with `PsolaShifter.get_frame`
(claim C4): "`frameAt(p)` indexes into the precomputed synthesized stream at
`round(p * sampleRateCorrection)`".  Identical to the source embedding except
that the index is `round` instead of truncation. -/
def get_frame_spec_rounded (s : PsolaShifter) (position : ℚ) : Option FrameOutput :=
  (s.iter_samples.bind fun chans =>
    chans.mapM fun channels =>
      channels.get? (round (position * s.sr_correction)).toNat).map
    frameOutputOfList

end PsolaShifter

/-- Modelled from the spec: `utils::load_smooth_param` is called by
`SamplePlayer::next` but is missing from the snapshot's `src/utils.rs`.  Per
§4.4/§5 the smoothed gain is evaluated once per frame on the first logical
channel and the same value is read by the other channels of that frame; the
nih_plug smoother itself is external, so the per-frame smoothed value is
modelled as one rational that both channel paths return. -/
def load_smooth_param (smoothed_value : ℚ) (_is_first_channel : Bool) : ℚ :=
  smoothed_value

/-- The per-voice parameter values `SamplePlayer` reads each call
(`SamplePlayerParams` in `src/params.rs`; the snapshot's `params.rs` predates
`start_offset`, `blend_group` and the `gain` smoother handle, which are
modelled from the spec as plain values). -/
structure SamplePlayerParams where
  muted : Bool
  is_tonal : Bool
  gain : ℚ
  root_note : ℤ
  semitone_offset : ℤ
  attack : ℚ
  decay : ℚ
  sustain : ℚ
  release : ℚ
  start_offset : ℚ
  blend_group : BlendGroup
deriving DecidableEq, Repr

/-- State of `SamplePlayer` in `src/sample_wrapper.rs`, restricted to what the
audio-path methods read and write.  `params` is the per-voice slice
`self.params.samples[self.index]`; `blend_time` and `blend_transition` are the
global blend parameters read through `self.params`. -/
structure SamplePlayer where
  params : SamplePlayerParams
  blend_time : ℚ
  blend_transition : ℚ
  buffer : Option (List ℚ)
  host_sample_rate : ℚ
  sample_rate : ℚ
  midi_note : Option ℤ
  host_channels : ℕ
  sample_channels : ℕ
  adsr : MultiChannelAdsr
deriving DecidableEq, Repr

namespace SamplePlayer

/-- `SamplePlayer::get_playback_rate` (src/sample_wrapper.rs lines 300-319).
`powf` stands for the `f32` intrinsic `x ↦ 2.0f32.powf x`. -/
def get_playback_rate (powf : ℚ → ℚ) (s : SamplePlayer) : ℚ :=
  let param_note_offset : ℚ := (s.params.semitone_offset : ℚ)
  let midi_note_offset : ℚ :=
    if s.params.is_tonal then
      ((s.midi_note.getD 0 : ℤ) : ℚ) - (s.params.root_note : ℚ)
    else 0
  let final_offset := param_note_offset + midi_note_offset
  powf (final_offset / 12)

/-- `SamplePlayer::get_sr_correction`. -/
def get_sr_correction (s : SamplePlayer) : ℚ :=
  s.sample_rate / s.host_sample_rate

/-- `SamplePlayer::get_playback_position`. -/
def get_playback_position (powf : ℚ → ℚ) (s : SamplePlayer)
    (process_count : ℚ) (channel_index : ℕ) : ℕ × ℚ :=
  get_stretch_playback_position process_count s.get_sr_correction
    (s.get_playback_rate powf) s.sample_channels channel_index

/-- `SamplePlayer::is_muted`. -/
def is_muted (s : SamplePlayer) : Bool :=
  s.params.muted

/-- `SamplePlayer::is_silent`. -/
def is_silent (s : SamplePlayer) : Bool :=
  s.adsr.is_idling || s.is_muted || s.buffer.isNone

/-- `SamplePlayer::get_buffer_if_not_silent`. -/
def get_buffer_if_not_silent (s : SamplePlayer) : Option (List ℚ) :=
  if s.is_silent then none else s.buffer

/-- The `final_sample_index` computation inside `SamplePlayer::next`
(src/sample_wrapper.rs lines 447-458): the start-offset shift, either clipped
below 0 (returning `none`, which makes `next` return 0) or added. -/
def final_sample_index (powf : ℚ → ℚ) (s : SamplePlayer) (process_count : ℚ)
    (channel_index : ℕ) : Option ℕ :=
  let sample_index := (s.get_playback_position powf process_count channel_index).1
  let offset : ℚ := -s.params.start_offset * s.sample_rate * (s.sample_channels : ℚ)
  if offset > 0 then
    clipping_sub sample_index (ratToUsize offset)
  else
    some (ratToUsize ((sample_index : ℚ) - offset))

/-- `SamplePlayer::next` (src/sample_wrapper.rs lines 432-504): one output
sample for one channel, together with the updated player state.  The source
mutates `self` (the ADSR, and — on end of data — the note and the ADSR reset);
here the new state is returned alongside the value. -/
def next (powf : ℚ → ℚ) (s : SamplePlayer) (process_count : ℚ)
    (channel_index : ℕ) : ℚ × SamplePlayer :=
  match s.get_buffer_if_not_silent with
  | none => (0, s)
  | some buffer =>
    let is_first_channel := channel_index == 0
    let fraction := (s.get_playback_position powf process_count channel_index).2
    match s.final_sample_index powf process_count channel_index with
    | none => (0, s)
    | some idx =>
      match buffer.get? idx, buffer.get? (idx + s.host_channels) with
      | none, _ =>
          (0, { s with midi_note := none, adsr := s.adsr.reset })
      | some value, onext =>
        let sample_value :=
          match onext with
          | some value_next => interpolate value value_next fraction
          | none => value
        let gain := load_smooth_param s.params.gain is_first_channel
        let current_time := process_count / s.host_sample_rate
        let blend_gain :=
          get_blend_value s.params.blend_group current_time s.blend_time
            s.blend_transition
        let adsr_pair :=
          s.adsr.next_value s.params.attack s.params.decay s.params.sustain
            s.params.release is_first_channel
        (sample_value * gain * adsr_pair.1 * blend_gain,
          { s with adsr := adsr_pair.2 })

end SamplePlayer

/-! ## Supporting lemmas -/

/-- `stage_progress` stays non-negative across first-channel advances: it is an
invariant of every state the code can reach (`new`, `note_on`, `note_off` all
set it to 0, `next` either zeroes it or adds 1). -/
theorem adsr_progress_nonneg_step (attack decay sustain release : ℚ)
    (s : MultiChannelAdsr) (h : 0 ≤ s.stage_progress) :
    0 ≤ (s.next attack decay sustain release).stage_progress := by
  obtain ⟨sr, p, v, st⟩ := s
  cases st <;> simp only [MultiChannelAdsr.next] <;> (try split_ifs) <;>
    simp_all <;> linarith

/-- A `Sustain`-stage advance stays in `Sustain` and writes `sustain` into
`current_value`. -/
theorem adsr_sustain_step (attack decay sustain release : ℚ)
    (s : MultiChannelAdsr) (h : s.stage = AdsrStage.Sustain) :
    (s.next attack decay sustain release).stage = AdsrStage.Sustain ∧
      (s.next attack decay sustain release).current_value = sustain := by
  obtain ⟨sr, p, v, st⟩ := s
  cases h
  exact ⟨rfl, rfl⟩

/-- Once a state is in `Sustain` holding `sustain`, every further
first-channel advance keeps both. -/
theorem adsr_sustain_invariant (attack decay sustain release : ℚ)
    (s : MultiChannelAdsr) (h1 : s.stage = AdsrStage.Sustain)
    (h2 : s.current_value = sustain) : ∀ n : ℕ,
    ((MultiChannelAdsr.step attack decay sustain release)^[n] s).stage
        = AdsrStage.Sustain ∧
      ((MultiChannelAdsr.step attack decay sustain release)^[n] s).current_value
        = sustain := by
  intro n
  induction n with
  | zero => exact ⟨h1, h2⟩
  | succ n ih =>
      rw [Function.iterate_succ_apply']
      exact adsr_sustain_step attack decay sustain release _ ih.1

/-- An `Attack`-stage state whose attack duration is exceeded within `k` more
samples leaves `Attack` after at most `k + 1` first-channel advances, snapping
`current_value` to 1 and moving to `Decay` (or straight to `Sustain` when
`decay ≤ 0`). -/
theorem adsr_attack_exit (attack decay sustain release : ℚ) :
    ∀ (k : ℕ) (s : MultiChannelAdsr), s.stage = AdsrStage.Attack →
      attack * s.sample_rate ≤ s.stage_progress + k →
      ∃ m : ℕ, m ≤ k ∧
        (MultiChannelAdsr.step attack decay sustain release)^[m + 1] s =
          { s with
              current_value := 1
              stage := if decay > 0 then AdsrStage.Decay else AdsrStage.Sustain
              stage_progress := 0 } := by
  intro k
  induction k with
  | zero =>
      intro s hs hle
      refine ⟨0, le_refl 0, ?_⟩
      obtain ⟨sr, p, v, st⟩ := s
      cases hs
      simp only [Nat.cast_zero, add_zero] at hle
      simp [MultiChannelAdsr.step, MultiChannelAdsr.next, ge_iff_le, hle]
  | succ k ih =>
      intro s hs hle
      by_cases hc : attack * s.sample_rate ≤ s.stage_progress
      · refine ⟨0, Nat.zero_le _, ?_⟩
        obtain ⟨sr, p, v, st⟩ := s
        cases hs
        simp [MultiChannelAdsr.step, MultiChannelAdsr.next, ge_iff_le, hc]
      · push_neg at hc
        obtain ⟨sr, p, v, st⟩ := s
        cases hs
        simp only at hc hle
        have hstep :
            MultiChannelAdsr.step attack decay sustain release ⟨sr, p, v, AdsrStage.Attack⟩ =
              ⟨sr, p + 1, p / (attack * sr), AdsrStage.Attack⟩ := by
          simp [MultiChannelAdsr.step, MultiChannelAdsr.next, ge_iff_le,
            not_le.mpr hc]
        have hle' :
            attack * (⟨sr, p + 1, p / (attack * sr), AdsrStage.Attack⟩ :
                MultiChannelAdsr).sample_rate ≤
              (⟨sr, p + 1, p / (attack * sr), AdsrStage.Attack⟩ :
                MultiChannelAdsr).stage_progress + k := by
          simp only
          push_cast at hle
          linarith
        obtain ⟨m, hm, hiter⟩ := ih ⟨sr, p + 1, p / (attack * sr), AdsrStage.Attack⟩ rfl hle'
        refine ⟨m + 1, Nat.succ_le_succ hm, ?_⟩
        rw [show m + 1 + 1 = (m + 1) + 1 from rfl, Function.iterate_succ_apply,
          hstep, hiter]

/-- A `Decay`-stage state whose decay duration is exceeded within `k` more
samples reaches `Sustain` after at most `k + 1` first-channel advances,
snapping `current_value` to `sustain`. -/
theorem adsr_decay_exit (attack decay sustain release : ℚ) :
    ∀ (k : ℕ) (s : MultiChannelAdsr), s.stage = AdsrStage.Decay →
      decay * s.sample_rate ≤ s.stage_progress + k →
      ∃ m : ℕ, m ≤ k ∧
        (MultiChannelAdsr.step attack decay sustain release)^[m + 1] s =
          { s with
              current_value := sustain
              stage := AdsrStage.Sustain
              stage_progress := 0 } := by
  intro k
  induction k with
  | zero =>
      intro s hs hle
      refine ⟨0, le_refl 0, ?_⟩
      obtain ⟨sr, p, v, st⟩ := s
      cases hs
      simp only [Nat.cast_zero, add_zero] at hle
      simp [MultiChannelAdsr.step, MultiChannelAdsr.next, ge_iff_le, hle]
  | succ k ih =>
      intro s hs hle
      by_cases hc : decay * s.sample_rate ≤ s.stage_progress
      · refine ⟨0, Nat.zero_le _, ?_⟩
        obtain ⟨sr, p, v, st⟩ := s
        cases hs
        simp [MultiChannelAdsr.step, MultiChannelAdsr.next, ge_iff_le, hc]
      · push_neg at hc
        obtain ⟨sr, p, v, st⟩ := s
        cases hs
        simp only at hc hle
        have hstep :
            MultiChannelAdsr.step attack decay sustain release ⟨sr, p, v, AdsrStage.Decay⟩ =
              ⟨sr, p + 1, 1 - p / (decay * sr) * (1 - sustain), AdsrStage.Decay⟩ := by
          simp [MultiChannelAdsr.step, MultiChannelAdsr.next, ge_iff_le,
            not_le.mpr hc]
        have hle' :
            decay * (⟨sr, p + 1, 1 - p / (decay * sr) * (1 - sustain),
                AdsrStage.Decay⟩ : MultiChannelAdsr).sample_rate ≤
              (⟨sr, p + 1, 1 - p / (decay * sr) * (1 - sustain),
                AdsrStage.Decay⟩ : MultiChannelAdsr).stage_progress + k := by
          simp only
          push_cast at hle
          linarith
        obtain ⟨m, hm, hiter⟩ :=
          ih ⟨sr, p + 1, 1 - p / (decay * sr) * (1 - sustain), AdsrStage.Decay⟩ rfl hle'
        refine ⟨m + 1, Nat.succ_le_succ hm, ?_⟩
        rw [show m + 1 + 1 = (m + 1) + 1 from rfl, Function.iterate_succ_apply,
          hstep, hiter]

/-- A rational is at most the cast of the `toNat` of its ceiling. -/
theorem rat_le_ceil_toNat (x : ℚ) : x ≤ ((⌈x⌉.toNat : ℕ) : ℚ) := by
  calc x ≤ (⌈x⌉ : ℚ) := Int.le_ceil x
    _ ≤ ((⌈x⌉.toNat : ℕ) : ℚ) := by exact_mod_cast Int.self_le_toNat ⌈x⌉

/-! ## Claim theorems -/

/-- C1: for every `attack`, `decay`, `release ≥ 0` and every `sustain`, after
`MultiChannelAdsr::note_on()` and sufficiently many first-channel
`next_value(attack, decay, sustain, release, true)` calls (whose state effect
is `MultiChannelAdsr.step`), the envelope's stage reaches `Sustain` and
`current_value` equals `sustain` exactly — also for `sustain < 0` or
`sustain > 1`, and from then on forever. -/
theorem C1_adsr_reaches_sustain (sr attack decay sustain release : ℚ)
    (hA : 0 ≤ attack) (hD : 0 ≤ decay) (hR : 0 ≤ release) :
    ∃ N : ℕ, ∀ n : ℕ,
      ((MultiChannelAdsr.step attack decay sustain release)^[N + n]
          ((MultiChannelAdsr.new sr).note_on)).stage = AdsrStage.Sustain ∧
      ((MultiChannelAdsr.step attack decay sustain release)^[N + n]
          ((MultiChannelAdsr.new sr).note_on)).current_value = sustain := by
  have hs0 : (MultiChannelAdsr.new sr).note_on =
      (⟨sr, 0, 0, AdsrStage.Attack⟩ : MultiChannelAdsr) := rfl
  have hleA : attack *
      ((⟨sr, 0, 0, AdsrStage.Attack⟩ : MultiChannelAdsr)).sample_rate ≤
      ((⟨sr, 0, 0, AdsrStage.Attack⟩ : MultiChannelAdsr)).stage_progress +
        ((⌈attack * sr⌉.toNat : ℕ) : ℚ) := by
    simpa using rat_le_ceil_toNat (attack * sr)
  obtain ⟨mA, _, hA1⟩ := adsr_attack_exit attack decay sustain release
    (⌈attack * sr⌉.toNat) ⟨sr, 0, 0, AdsrStage.Attack⟩ rfl hleA
  by_cases hd : decay > 0
  · rw [if_pos hd] at hA1
    have hleD : decay *
        ((⟨sr, 0, 1, AdsrStage.Decay⟩ : MultiChannelAdsr)).sample_rate ≤
        ((⟨sr, 0, 1, AdsrStage.Decay⟩ : MultiChannelAdsr)).stage_progress +
          ((⌈decay * sr⌉.toNat : ℕ) : ℚ) := by
      simpa using rat_le_ceil_toNat (decay * sr)
    obtain ⟨mD, _, hD1⟩ := adsr_decay_exit attack decay sustain release
      (⌈decay * sr⌉.toNat) ⟨sr, 0, 1, AdsrStage.Decay⟩ rfl hleD
    refine ⟨(mD + 1) + (mA + 1), fun n => ?_⟩
    have hsplit : (mD + 1) + (mA + 1) + n = (n + (mD + 1)) + (mA + 1) := by omega
    rw [hsplit, hs0, Function.iterate_add_apply, hA1,
      Function.iterate_add_apply, hD1]
    exact adsr_sustain_invariant attack decay sustain release _ rfl rfl n
  · rw [if_neg hd] at hA1
    have hstep1 : MultiChannelAdsr.step attack decay sustain release
        ⟨sr, 0, 1, AdsrStage.Sustain⟩ =
        (⟨sr, 0, sustain, AdsrStage.Sustain⟩ : MultiChannelAdsr) := rfl
    refine ⟨1 + (mA + 1), fun n => ?_⟩
    have hsplit : 1 + (mA + 1) + n = (n + 1) + (mA + 1) := by omega
    rw [hsplit, hs0, Function.iterate_add_apply, hA1,
      Function.iterate_add_apply, Function.iterate_one, hstep1]
    exact adsr_sustain_invariant attack decay sustain release _ rfl rfl n

/-- Witness for C1 at `sr = 2`, `attack = 1`, `decay = 1`, `sustain = 5/2`,
`release = 1`. -/
theorem C1_adsr_reaches_sustain_witness :
    ∃ N : ℕ, ∀ n : ℕ,
      ((MultiChannelAdsr.step 1 1 (5/2) 1)^[N + n]
          ((MultiChannelAdsr.new 2).note_on)).stage = AdsrStage.Sustain ∧
      ((MultiChannelAdsr.step 1 1 (5/2) 1)^[N + n]
          ((MultiChannelAdsr.new 2).note_on)).current_value = 5/2 :=
  C1_adsr_reaches_sustain 2 1 1 (5/2) 1 (by norm_num) (by norm_num) (by norm_num)

/-- C2 counterexample: the claim "while the envelope stays in the Decay stage
the returned values are non-increasing ... for every real sustain value
(including sustain > 1)" fails on the code.  Concrete input: sample rate 1,
`decay = 2`, `sustain = 2`, state in `Decay` with progress 0 after holding
value 1; two successive first-channel `next_value` calls both stay in `Decay`
and return 1 then 3/2 — strictly increasing. -/
theorem C2_counterexample_decay_increases :
    (⟨1, 0, 1, AdsrStage.Decay⟩ : MultiChannelAdsr).stage = AdsrStage.Decay ∧
    ((⟨1, 0, 1, AdsrStage.Decay⟩ : MultiChannelAdsr).next_value 0 2 2 0 true).2.stage
        = AdsrStage.Decay ∧
    ((⟨1, 0, 1, AdsrStage.Decay⟩ : MultiChannelAdsr).next_value 0 2 2 0 true).1 <
      ((((⟨1, 0, 1, AdsrStage.Decay⟩ : MultiChannelAdsr).next_value 0 2 2 0
          true).2).next_value 0 2 2 0 true).1 := by
  refine ⟨rfl, ?_, ?_⟩ <;>
    norm_num [MultiChannelAdsr.next_value, MultiChannelAdsr.next]

/-- C2 amended: with fixed parameters and two successive first-channel
`next_value` calls from any reachable state (`stage_progress ≥ 0`): while the
envelope stays in `Attack` the returned values are non-decreasing
(unconditionally); while it stays in `Decay` they are non-increasing provided
`sustain ≤ 1`; while it stays in `Release` they are non-increasing provided
`0 ≤ sustain`.  (For `sustain > 1` the decay ramp rises towards `sustain`, and
for `sustain < 0` the release ramp rises towards 0 — see the counterexample.) -/
theorem C2_adsr_stagewise_monotonicity (attack decay sustain release : ℚ)
    (s : MultiChannelAdsr) (hp : 0 ≤ s.stage_progress) :
    (s.stage = AdsrStage.Attack →
      (s.next_value attack decay sustain release true).2.stage = AdsrStage.Attack →
      (s.next_value attack decay sustain release true).1 ≤
        ((s.next_value attack decay sustain release true).2.next_value
          attack decay sustain release true).1) ∧
    (sustain ≤ 1 → s.stage = AdsrStage.Decay →
      (s.next_value attack decay sustain release true).2.stage = AdsrStage.Decay →
      ((s.next_value attack decay sustain release true).2.next_value
          attack decay sustain release true).1 ≤
        (s.next_value attack decay sustain release true).1) ∧
    (0 ≤ sustain → s.stage = AdsrStage.Release →
      (s.next_value attack decay sustain release true).2.stage = AdsrStage.Release →
      ((s.next_value attack decay sustain release true).2.next_value
          attack decay sustain release true).1 ≤
        (s.next_value attack decay sustain release true).1) := by
  obtain ⟨sr, p, v, st⟩ := s
  simp only at hp
  have hnv : ∀ a : MultiChannelAdsr,
      a.next_value attack decay sustain release true =
        ((a.next attack decay sustain release).current_value,
          a.next attack decay sustain release) := fun _ => rfl
  refine ⟨?_, ?_, ?_⟩
  · intro h1 h2
    cases h1
    simp only [hnv] at h2 ⊢
    try dsimp only at h2 ⊢
    by_cases hc : p ≥ attack * sr
    · have eA : (⟨sr, p, v, AdsrStage.Attack⟩ : MultiChannelAdsr).next
          attack decay sustain release =
          (⟨sr, 0, 1, if decay > 0 then AdsrStage.Decay else AdsrStage.Sustain⟩ :
            MultiChannelAdsr) := by
        simp only [MultiChannelAdsr.next]
        rw [if_pos hc]
      rw [eA] at h2
      dsimp only at h2
      split at h2 <;> simp at h2
    · have hpos : 0 < attack * sr := lt_of_le_of_lt hp (not_le.mp hc)
      have eA : (⟨sr, p, v, AdsrStage.Attack⟩ : MultiChannelAdsr).next
          attack decay sustain release =
          (⟨sr, p + 1, p / (attack * sr), AdsrStage.Attack⟩ : MultiChannelAdsr) := by
        simp only [MultiChannelAdsr.next]
        rw [if_neg hc]
      rw [eA]
      dsimp only
      by_cases hc2 : p + 1 ≥ attack * sr
      · have eA2 : (⟨sr, p + 1, p / (attack * sr), AdsrStage.Attack⟩ :
            MultiChannelAdsr).next attack decay sustain release =
            (⟨sr, 0, 1, if decay > 0 then AdsrStage.Decay else AdsrStage.Sustain⟩ :
              MultiChannelAdsr) := by
          simp only [MultiChannelAdsr.next]
          rw [if_pos hc2]
        rw [eA2]
        dsimp only
        rw [div_le_one hpos]
        linarith [not_le.mp hc]
      · have eA2 : (⟨sr, p + 1, p / (attack * sr), AdsrStage.Attack⟩ :
            MultiChannelAdsr).next attack decay sustain release =
            (⟨sr, p + 1 + 1, (p + 1) / (attack * sr), AdsrStage.Attack⟩ :
              MultiChannelAdsr) := by
          simp only [MultiChannelAdsr.next]
          rw [if_neg hc2]
        rw [eA2]
        dsimp only
        rw [div_le_div_iff_of_pos_right hpos]
        linarith
  · intro hsu h1 h2
    cases h1
    simp only [hnv] at h2 ⊢
    try dsimp only at h2 ⊢
    by_cases hc : p ≥ decay * sr
    · have eD : (⟨sr, p, v, AdsrStage.Decay⟩ : MultiChannelAdsr).next
          attack decay sustain release =
          (⟨sr, 0, sustain, AdsrStage.Sustain⟩ : MultiChannelAdsr) := by
        simp only [MultiChannelAdsr.next]
        rw [if_pos hc]
      rw [eD] at h2
      simp at h2
    · have hpos : 0 < decay * sr := lt_of_le_of_lt hp (not_le.mp hc)
      have hfrac : p / (decay * sr) ≤ 1 := by
        rw [div_le_one hpos]
        linarith [not_le.mp hc]
      have eD : (⟨sr, p, v, AdsrStage.Decay⟩ : MultiChannelAdsr).next
          attack decay sustain release =
          (⟨sr, p + 1, 1 - p / (decay * sr) * (1 - sustain), AdsrStage.Decay⟩ :
            MultiChannelAdsr) := by
        simp only [MultiChannelAdsr.next]
        rw [if_neg hc]
      rw [eD]
      dsimp only
      by_cases hc2 : p + 1 ≥ decay * sr
      · have eD2 : (⟨sr, p + 1, 1 - p / (decay * sr) * (1 - sustain),
            AdsrStage.Decay⟩ : MultiChannelAdsr).next attack decay sustain release =
            (⟨sr, 0, sustain, AdsrStage.Sustain⟩ : MultiChannelAdsr) := by
          simp only [MultiChannelAdsr.next]
          rw [if_pos hc2]
        rw [eD2]
        dsimp only
        have := mul_le_of_le_one_left (by linarith : (0:ℚ) ≤ 1 - sustain) hfrac
        linarith
      · have eD2 : (⟨sr, p + 1, 1 - p / (decay * sr) * (1 - sustain),
            AdsrStage.Decay⟩ : MultiChannelAdsr).next attack decay sustain release =
            (⟨sr, p + 1 + 1, 1 - (p + 1) / (decay * sr) * (1 - sustain),
              AdsrStage.Decay⟩ : MultiChannelAdsr) := by
          simp only [MultiChannelAdsr.next]
          rw [if_neg hc2]
        rw [eD2]
        dsimp only
        have hmono : p / (decay * sr) ≤ (p + 1) / (decay * sr) := by
          rw [div_le_div_iff_of_pos_right hpos]
          linarith
        have := mul_le_mul_of_nonneg_right hmono
          (by linarith : (0:ℚ) ≤ 1 - sustain)
        linarith
  · intro hsu h1 h2
    cases h1
    simp only [hnv] at h2 ⊢
    try dsimp only at h2 ⊢
    by_cases hc : p ≥ release * sr
    · have eR : (⟨sr, p, v, AdsrStage.Release⟩ : MultiChannelAdsr).next
          attack decay sustain release =
          (⟨sr, 0, 0, AdsrStage.Idle⟩ : MultiChannelAdsr) := by
        simp only [MultiChannelAdsr.next]
        rw [if_pos hc]
      rw [eR] at h2
      simp at h2
    · have hpos : 0 < release * sr := lt_of_le_of_lt hp (not_le.mp hc)
      have hfrac : p / (release * sr) ≤ 1 := by
        rw [div_le_one hpos]
        linarith [not_le.mp hc]
      have eR : (⟨sr, p, v, AdsrStage.Release⟩ : MultiChannelAdsr).next
          attack decay sustain release =
          (⟨sr, p + 1, sustain * (1 - p / (release * sr)), AdsrStage.Release⟩ :
            MultiChannelAdsr) := by
        simp only [MultiChannelAdsr.next]
        rw [if_neg hc]
      rw [eR]
      dsimp only
      by_cases hc2 : p + 1 ≥ release * sr
      · have eR2 : (⟨sr, p + 1, sustain * (1 - p / (release * sr)),
            AdsrStage.Release⟩ : MultiChannelAdsr).next attack decay sustain release =
            (⟨sr, 0, 0, AdsrStage.Idle⟩ : MultiChannelAdsr) := by
          simp only [MultiChannelAdsr.next]
          rw [if_pos hc2]
        rw [eR2]
        dsimp only
        exact mul_nonneg hsu (by linarith)
      · have eR2 : (⟨sr, p + 1, sustain * (1 - p / (release * sr)),
            AdsrStage.Release⟩ : MultiChannelAdsr).next attack decay sustain release =
            (⟨sr, p + 1 + 1, sustain * (1 - (p + 1) / (release * sr)),
              AdsrStage.Release⟩ : MultiChannelAdsr) := by
          simp only [MultiChannelAdsr.next]
          rw [if_neg hc2]
        rw [eR2]
        dsimp only
        have hmono : p / (release * sr) ≤ (p + 1) / (release * sr) := by
          rw [div_le_div_iff_of_pos_right hpos]
          linarith
        exact mul_le_mul_of_nonneg_left (by linarith) hsu

/-- Witness for C2 at sample rate 1, `decay = 2`, `sustain = 1/2`, from a
`Decay` state with progress 0: the second of two in-Decay first-channel calls
returns no more than the first. -/
theorem C2_adsr_stagewise_monotonicity_witness :
    (((⟨1, 0, 1, AdsrStage.Decay⟩ : MultiChannelAdsr).next_value 0 2 (1/2) 0
        true).2.next_value 0 2 (1/2) 0 true).1 ≤
      ((⟨1, 0, 1, AdsrStage.Decay⟩ : MultiChannelAdsr).next_value 0 2 (1/2) 0
        true).1 :=
  (C2_adsr_stagewise_monotonicity 0 2 (1/2) 0 ⟨1, 0, 1, AdsrStage.Decay⟩
      (by norm_num)).2.1 (by norm_num) rfl
    (by norm_num [MultiChannelAdsr.next_value, MultiChannelAdsr.next])

/-- C3 (failing part, evaluated): `ClassicShifter::ready` returns `true`
directly after `new()` followed by `load_sample(...)`, although `trigger()`
was never called — contradicting the claim (and the `PitchShifter` trait
documentation in src/pitch_shift/mod.rs lines 117-130, which requires
`ready() = false` as long as `trigger()` hasn't been called). -/
theorem C3_classic_ready_without_trigger :
    (ClassicShifter.new.load_sample [0] 1 44100).ready = true := rfl

/-- C5: with `attack = decay = release = 0` (any sample rate, any sustain):
one first-channel `next_value` call after `note_on()` reaches the terminal
held stage `Sustain`, and one first-channel call after `note_off()` reaches
`Idle` with output 0 — each zero-duration stage is passed through within a
single advance, with no non-terminal intermediate frame. -/
theorem C5_zero_duration_stages_collapse (sr sustain : ℚ) :
    (((MultiChannelAdsr.new sr).note_on).next 0 0 sustain 0).stage
        = AdsrStage.Sustain ∧
    (((((MultiChannelAdsr.new sr).note_on).next 0 0 sustain 0).note_off).next
        0 0 sustain 0).stage = AdsrStage.Idle ∧
    (((((MultiChannelAdsr.new sr).note_on).next 0 0 sustain 0).note_off).next
        0 0 sustain 0).current_value = 0 := by
  have h1 : ((MultiChannelAdsr.new sr).note_on).next 0 0 sustain 0 =
      (⟨sr, 0, 1, AdsrStage.Sustain⟩ : MultiChannelAdsr) := by
    simp only [MultiChannelAdsr.new, MultiChannelAdsr.note_on,
      MultiChannelAdsr.next]
    rw [if_pos (by rw [zero_mul] : (0:ℚ) ≥ 0 * sr)]
    norm_num
  rw [h1]
  have h2 : ((⟨sr, 0, 1, AdsrStage.Sustain⟩ : MultiChannelAdsr)).note_off =
      (⟨sr, 0, 1, AdsrStage.Release⟩ : MultiChannelAdsr) := rfl
  rw [h2]
  have h3 : ((⟨sr, 0, 1, AdsrStage.Release⟩ : MultiChannelAdsr)).next
      0 0 sustain 0 = (⟨sr, 0, 0, AdsrStage.Idle⟩ : MultiChannelAdsr) := by
    simp only [MultiChannelAdsr.next]
    rw [if_pos (by rw [zero_mul] : (0:ℚ) ≥ 0 * sr)]
  rw [h3]
  exact ⟨rfl, rfl, rfl⟩

/-- C8: a first-channel `next_value` call followed by a non-first-channel call
with identical parameters returns the same value, and the second call leaves
the entire envelope state (stage, stage_progress, current_value — the whole
record) unchanged. -/
theorem C8_second_channel_is_pure (attack decay sustain release : ℚ)
    (a : MultiChannelAdsr) :
    ((a.next_value attack decay sustain release true).2.next_value
        attack decay sustain release false).1 =
      (a.next_value attack decay sustain release true).1 ∧
    ((a.next_value attack decay sustain release true).2.next_value
        attack decay sustain release false).2 =
      (a.next_value attack decay sustain release true).2 :=
  ⟨rfl, rfl⟩

/-- An Option-valued `List.mapM` is `none` exactly when some element maps to
`none`. -/
theorem option_mapM_eq_none_iff {α β : Type} (f : α → Option β) (l : List α) :
    l.mapM f = none ↔ ∃ a ∈ l, f a = none := by
  induction l with
  | nil =>
      rw [List.mapM_nil]
      simp
  | cons a l ih =>
      rw [List.mapM_cons]
      cases hfa : f a with
      | none =>
          simp only [Option.bind_eq_bind, Option.none_bind]
          exact iff_of_true trivial ⟨a, List.mem_cons_self a l, hfa⟩
      | some b =>
          cases hml : l.mapM f with
          | none =>
              simp only [Option.bind_eq_bind, Option.some_bind, Option.none_bind]
              refine iff_of_true trivial ?_
              obtain ⟨x, hx, hfx⟩ := ih.mp hml
              exact ⟨x, List.mem_cons_of_mem a hx, hfx⟩
          | some bs =>
              simp only [Option.bind_eq_bind, Option.some_bind]
              constructor
              · intro h
                simp at h
              · rintro ⟨x, hx, hfx⟩
                rcases List.mem_cons.mp hx with h1 | h2
                · rw [h1, hfa] at hfx
                  cases hfx
                · have := ih.mpr ⟨x, h2, hfx⟩
                  rw [hml] at this
                  cases this

/-- An Option-valued `List.mapM` whose elements all succeed equals the
corresponding `List.map` wrapped in `some`. -/
theorem option_mapM_eq_map {α β : Type} (f : α → Option β) (g : α → β)
    (l : List α) (h : ∀ a ∈ l, f a = some (g a)) :
    l.mapM f = some (l.map g) := by
  induction l with
  | nil =>
      rw [List.mapM_nil]
      rfl
  | cons a l ih =>
      rw [List.mapM_cons, h a (List.mem_cons_self a l),
        ih fun x hx => h x (List.mem_cons_of_mem a hx)]
      rfl

/-- C4 counterexample: for a triggered `PsolaShifter` with correction 1 and a
single channel stream `[10, 20, 30]`, `get_frame(3/2)` reads index
`trunc(3/2) = 1` (value 20), not the spec's `round(3/2) = 2` (value 30). -/
theorem C4_counterexample_trunc_not_round :
    (⟨some [[10, 20, 30]], 0, true, 1, 1⟩ : PsolaShifter).get_frame (3/2)
        = some (FrameOutput.Mono 20) ∧
    (⟨some [[10, 20, 30]], 0, true, 1, 1⟩ : PsolaShifter).get_frame_spec_rounded
        (3/2) = some (FrameOutput.Mono 30) ∧
    (⟨some [[10, 20, 30]], 0, true, 1, 1⟩ : PsolaShifter).get_frame (3/2) ≠
      (⟨some [[10, 20, 30]], 0, true, 1, 1⟩ :
        PsolaShifter).get_frame_spec_rounded (3/2) := by
  have hidx : ratToUsize ((3:ℚ)/2 * 1) = 1 := by
    unfold ratToUsize ratTrunc
    rw [if_neg (by norm_num : ¬((3:ℚ)/2 * 1 < 0))]
    norm_num
  have hridx : (round ((3:ℚ)/2 * 1)).toNat = 2 := by
    norm_num [round_eq]
    rfl
  have h1 : (⟨some [[10, 20, 30]], 0, true, 1, 1⟩ : PsolaShifter).get_frame (3/2)
      = some (FrameOutput.Mono 20) := by
    unfold PsolaShifter.get_frame
    dsimp only
    simp only [hidx, Option.some_bind]
    rw [List.mapM_cons, List.mapM_nil]
    simp [frameOutputOfList]
  have h2 : (⟨some [[10, 20, 30]], 0, true, 1, 1⟩ :
      PsolaShifter).get_frame_spec_rounded (3/2) = some (FrameOutput.Mono 30) := by
    unfold PsolaShifter.get_frame_spec_rounded
    dsimp only
    simp only [hridx, Option.some_bind]
    rw [List.mapM_cons, List.mapM_nil]
    simp [frameOutputOfList]
  refine ⟨h1, h2, ?_⟩
  rw [h1, h2]
  simp

/-- C4 amended: for a triggered `PsolaShifter` (synthesized streams present)
with correction `c = sr_correction ≥ 0` and position `p ≥ 0`, `get_frame(p)`
reads every channel's precomputed synthesized stream at the truncated index
`⌊p * c⌋` (not the spec's `round(p * c)`), and returns `None` exactly when
that index is out of range of at least one channel's stream. -/
theorem C4_psola_frame_truncated_index (s : PsolaShifter)
    (chans : List (List ℚ)) (hs : s.iter_samples = some chans) (p : ℚ)
    (hp : 0 ≤ p) (hc : 0 ≤ s.sr_correction) :
    (s.get_frame p = none ↔
      ∃ ch ∈ chans, ch.length ≤ (⌊p * s.sr_correction⌋).toNat) ∧
    ((∀ ch ∈ chans, (⌊p * s.sr_correction⌋).toNat < ch.length) →
      s.get_frame p = some (frameOutputOfList
        (chans.map fun ch => ch.getD ((⌊p * s.sr_correction⌋).toNat) 0))) := by
  have hidx : ratToUsize (p * s.sr_correction) = (⌊p * s.sr_correction⌋).toNat := by
    unfold ratToUsize ratTrunc
    rw [if_neg (not_lt.mpr (mul_nonneg hp hc))]
  constructor
  · unfold PsolaShifter.get_frame
    rw [hs]
    simp only [hidx, Option.some_bind, Option.map_eq_none']
    rw [option_mapM_eq_none_iff]
    exact exists_congr fun ch =>
      and_congr_right fun _ => List.get?_eq_none
  · intro hall
    unfold PsolaShifter.get_frame
    rw [hs]
    simp only [hidx, Option.some_bind]
    rw [option_mapM_eq_map
      (fun ch => ch.get? ((⌊p * s.sr_correction⌋).toNat))
      (fun ch => ch.getD ((⌊p * s.sr_correction⌋).toNat) 0) chans ?_]
    · rfl
    · intro ch hch
      show ch.get? ((⌊p * s.sr_correction⌋).toNat) =
        some (ch.getD ((⌊p * s.sr_correction⌋).toNat) 0)
      rw [List.get?_eq_get (hall ch hch)]
      rw [List.getD_eq_getElem?_getD, List.getElem?_eq_getElem (hall ch hch)]
      rfl

/-- Witness for C4 at the stream `[[10, 20, 30]]`, correction 1, position
`3/2`: the frame read is the one at truncated index 1. -/
theorem C4_psola_frame_truncated_index_witness :
    (⟨some [[10, 20, 30]], 0, true, 1, 1⟩ : PsolaShifter).get_frame (3/2) =
      some (frameOutputOfList ([[(10:ℚ), 20, 30]].map fun ch =>
        ch.getD ((⌊(3:ℚ)/2 * (1:ℚ)⌋).toNat) 0)) :=
  (C4_psola_frame_truncated_index (⟨some [[10, 20, 30]], 0, true, 1, 1⟩ :
      PsolaShifter) [[10, 20, 30]] rfl (3/2) (by norm_num) (by norm_num)).2
    (by
      intro ch hch
      have h32 : ⌊(3:ℚ)/2 * (1:ℚ)⌋ = 1 := by norm_num
      rcases List.mem_singleton.mp hch with h
      rw [h, h32]
      simp)

/-- C6 counterexample: the claim says `get_blend_value(Start, t, center,
width)` is "exactly 0 for t ≥ center + width/2", for every width.  At
`t = center = 0` and `width = 0` the point `t` satisfies
`t ≥ center + width/2`, yet the code's non-finite fallback returns 1, not 0. -/
theorem C6_counterexample_width_zero :
    get_blend_value BlendGroup.Start 0 0 0 = 1 ∧ (0:ℚ) ≥ 0 + 0 / 2 := by
  constructor
  · unfold get_blend_value
    norm_num
  · norm_num

/-- C6 amended: `get_blend_value` role `None` is always exactly 1; the result
is always inside `[0, 1]` (the non-finite fallback returns 1 and everything
else is clamped — never NaN or infinite); at `width = 0` the division by zero
at `t = center` is coerced to 1 for both ramp roles; and for `width > 0` the
piecewise law holds: role `Start` is exactly 1 for `t ≤ center - width/2`,
exactly 0 for `t ≥ center + width/2` and the linear ramp
`(center + width/2 - t) / width` in between, role `End` being the mirror
image. -/
theorem C6_blend_value_amended (t c w : ℚ) :
    (get_blend_value BlendGroup.None t c w = 1) ∧
    (∀ g : BlendGroup,
      0 ≤ get_blend_value g t c w ∧ get_blend_value g t c w ≤ 1) ∧
    (get_blend_value BlendGroup.Start c c 0 = 1 ∧
      get_blend_value BlendGroup.End c c 0 = 1) ∧
    (0 < w → t ≤ c - w / 2 → get_blend_value BlendGroup.Start t c w = 1) ∧
    (0 < w → c + w / 2 ≤ t → get_blend_value BlendGroup.Start t c w = 0) ∧
    (0 < w → c - w / 2 ≤ t → t ≤ c + w / 2 →
      get_blend_value BlendGroup.Start t c w = (c + w / 2 - t) / w) ∧
    (0 < w → t ≤ c - w / 2 → get_blend_value BlendGroup.End t c w = 0) ∧
    (0 < w → c + w / 2 ≤ t → get_blend_value BlendGroup.End t c w = 1) ∧
    (0 < w → c - w / 2 ≤ t → t ≤ c + w / 2 →
      get_blend_value BlendGroup.End t c w = (t - (c - w / 2)) / w) := by
  refine ⟨?_, ?_, ⟨?_, ?_⟩, ?_, ?_, ?_, ?_, ?_, ?_⟩
  · unfold get_blend_value
    norm_num
  · intro g
    cases g <;> unfold get_blend_value <;> dsimp only <;> (try split_ifs) <;>
      norm_num
  · unfold get_blend_value
    norm_num
  · unfold get_blend_value
    norm_num
  · intro hw hle
    unfold get_blend_value
    dsimp only
    by_cases h1 : t < c - w / 2
    · rw [if_pos h1]
      norm_num
    · have ht : t = c - w / 2 := le_antisymm hle (not_lt.mp h1)
      rw [if_neg h1, if_neg (by linarith : ¬t > c - w / 2 + w),
        if_neg (by linarith : ¬w = 0)]
      have he : c - w / 2 + w - t = w := by rw [ht]; ring
      rw [he, div_self (by linarith : w ≠ 0)]
      norm_num
  · intro hw hge
    unfold get_blend_value
    dsimp only
    by_cases h2 : t > c - w / 2 + w
    · rw [if_neg (by linarith : ¬t < c - w / 2), if_pos h2]
      norm_num
    · have ht : t = c - w / 2 + w := le_antisymm (not_lt.mp h2) (by linarith)
      rw [if_neg (by linarith : ¬t < c - w / 2), if_neg h2,
        if_neg (by linarith : ¬w = 0)]
      have he : c - w / 2 + w - t = 0 := by rw [ht]; ring
      rw [he, zero_div]
      norm_num
  · intro hw hlo hhi
    unfold get_blend_value
    dsimp only
    rw [if_neg (by linarith : ¬t < c - w / 2),
      if_neg (by linarith : ¬t > c - w / 2 + w),
      if_neg (by linarith : ¬w = 0)]
    have h0 : 0 ≤ (c - w / 2 + w - t) / w :=
      div_nonneg (by linarith) (le_of_lt hw)
    have h1 : (c - w / 2 + w - t) / w ≤ 1 := by
      rw [div_le_one hw]
      linarith
    dsimp only
    rw [max_eq_left h0, min_eq_left h1]
    congr 1
    ring
  · intro hw hle
    unfold get_blend_value
    dsimp only
    by_cases h1 : t < c - w / 2
    · rw [if_pos h1]
      norm_num
    · have ht : t = c - w / 2 := le_antisymm hle (not_lt.mp h1)
      rw [if_neg h1, if_neg (by linarith : ¬t > c - w / 2 + w),
        if_neg (by linarith : ¬w = 0)]
      have he : t - (c - w / 2) = 0 := by rw [ht]; ring
      rw [he, zero_div]
      norm_num
  · intro hw hge
    unfold get_blend_value
    dsimp only
    by_cases h2 : t > c - w / 2 + w
    · rw [if_neg (by linarith : ¬t < c - w / 2), if_pos h2]
      norm_num
    · have ht : t = c - w / 2 + w := le_antisymm (not_lt.mp h2) (by linarith)
      rw [if_neg (by linarith : ¬t < c - w / 2), if_neg h2,
        if_neg (by linarith : ¬w = 0)]
      have he : t - (c - w / 2) = w := by rw [ht]; ring
      rw [he, div_self (by linarith : w ≠ 0)]
      norm_num
  · intro hw hlo hhi
    unfold get_blend_value
    dsimp only
    rw [if_neg (by linarith : ¬t < c - w / 2),
      if_neg (by linarith : ¬t > c - w / 2 + w),
      if_neg (by linarith : ¬w = 0)]
    have h0 : 0 ≤ (t - (c - w / 2)) / w :=
      div_nonneg (by linarith) (le_of_lt hw)
    have h1 : (t - (c - w / 2)) / w ≤ 1 := by
      rw [div_le_one hw]
      linarith
    dsimp only
    rw [max_eq_left h0, min_eq_left h1]

/-- Witness for C6 at `t = 1`, `center = 0`, `width = 4` (inside the Start
ramp): the gain equals the linear formula `(0 + 4/2 - 1) / 4`. -/
theorem C6_blend_value_amended_witness :
    get_blend_value BlendGroup.Start 1 0 4 = (0 + 4 / 2 - 1) / 4 :=
  ((((((C6_blend_value_amended 1 0 4).2).2).2).2).2).1 (by norm_num)
    (by norm_num) (by norm_num)

/-- With unit playback rate and unit correction, the stretch position of an
integer frame `p` is the exact interleaved index `p * nch + ch` with zero
fraction. -/
theorem stretch_position_at_unit (p : ℕ) (nch ch : ℕ) :
    get_stretch_playback_position (p : ℚ) 1 1 nch ch = (p * nch + ch, 0) := by
  unfold get_stretch_playback_position ratToUsize ratFract ratTrunc
  dsimp only
  have hpitched : (1 : ℚ) * ((p : ℚ) * 1) = (p : ℚ) := by ring
  rw [hpitched, if_neg (not_lt.mpr (Nat.cast_nonneg p)), Int.floor_natCast,
    Int.toNat_natCast]
  norm_num

/-- C7: a `ClassicShifter` triggered with `playback_rate = 1` and
`sr_correction = 1` reads integer positions exactly: for every integer `p`
with the whole frame in range, `get_frame(p)` returns `buffer[p*channels+ch]`
on each channel `ch` with no interpolation error; and on the 2-channel 4-frame
buffer `[0,0,1,1,2,2,3,3]`, `get_frame(3/2)` yields `3/2` on both channels
(linear interpolation halfway between frames 1 and 2). -/
theorem C7_classic_exact_and_midpoint (buffer : List ℚ) (nch p : ℕ) (sr : ℚ)
    (hlen : (p + 1) * nch ≤ buffer.length) :
    (ClassicShifter.mk (some buffer) nch sr 1 1 true).get_frame (p : ℚ) =
      some ((List.range nch).map fun ch => buffer.getD (p * nch + ch) 0) ∧
    (ClassicShifter.mk (some [0, 0, 1, 1, 2, 2, 3, 3]) 2 44100 1 1
        true).get_frame (3/2) = some [3/2, 3/2] := by
  constructor
  · unfold ClassicShifter.get_frame
    simp only [Option.some_bind]
    rw [option_mapM_eq_map _ (fun ch => buffer.getD (p * nch + ch) 0)
      (List.range nch) ?_]
    intro ch hch
    have hchlt : ch < nch := List.mem_range.mp hch
    have hidx : p * nch + ch < buffer.length := by
      have hexp : (p + 1) * nch = p * nch + nch := by ring
      omega
    dsimp only
    rw [show (ClassicShifter.mk (some buffer) nch sr 1 1
        true).get_playback_position (p : ℚ) ch =
        get_stretch_playback_position (p : ℚ) 1 1 nch ch from rfl,
      stretch_position_at_unit]
    dsimp only
    have hget : buffer.get? (p * nch + ch) = some (buffer.get ⟨_, hidx⟩) :=
      List.get?_eq_get hidx
    have hgetD : buffer.getD (p * nch + ch) 0 = buffer.get ⟨_, hidx⟩ := by
      rw [List.getD_eq_getElem?_getD, List.getElem?_eq_getElem hidx]
      rfl
    rw [hget, hgetD]
    cases hnext : buffer.get? (p * nch + ch + nch) with
    | none => rfl
    | some vnext =>
        dsimp only
        rw [show ClassicShifter.interp (buffer.get ⟨p * nch + ch, hidx⟩) vnext 0
          = buffer.get ⟨p * nch + ch, hidx⟩ from by
            unfold ClassicShifter.interp; ring]
  · unfold ClassicShifter.get_frame
    simp only [Option.some_bind]
    have hsp : ∀ ch : ℕ, get_stretch_playback_position (3/2 : ℚ) 1 1 2 ch =
        (2 + ch, 1/2) := by
      intro ch
      unfold get_stretch_playback_position ratToUsize ratFract ratTrunc
      dsimp only
      have hpitched : (1 : ℚ) * ((3/2 : ℚ) * 1) = (3/2 : ℚ) := by ring
      rw [hpitched, if_neg (by norm_num : ¬((3/2 : ℚ) < 0))]
      norm_num
    rw [show List.range 2 = [0, 1] from rfl, List.mapM_cons, List.mapM_cons,
      List.mapM_nil]
    try dsimp only
    rw [show (ClassicShifter.mk (some [(0:ℚ), 0, 1, 1, 2, 2, 3, 3]) 2 44100 1 1
        true).get_playback_position (3/2) 0 =
        get_stretch_playback_position (3/2 : ℚ) 1 1 2 0 from rfl,
      show (ClassicShifter.mk (some [(0:ℚ), 0, 1, 1, 2, 2, 3, 3]) 2 44100 1 1
        true).get_playback_position (3/2) 1 =
        get_stretch_playback_position (3/2 : ℚ) 1 1 2 1 from rfl,
      hsp 0, hsp 1]
    dsimp only
    norm_num [ClassicShifter.interp]

/-- Witness for C7 at the mono buffer `[5, 6]`, frame 0. -/
theorem C7_classic_exact_and_midpoint_witness :
    (ClassicShifter.mk (some [5, 6]) 1 1 1 1 true).get_frame ((0 : ℕ) : ℚ) =
      some ((List.range 1).map fun ch => [(5 : ℚ), 6].getD (0 * 1 + ch) 0) ∧
    (ClassicShifter.mk (some [0, 0, 1, 1, 2, 2, 3, 3]) 2 44100 1 1
        true).get_frame (3/2) = some [3/2, 3/2] :=
  C7_classic_exact_and_midpoint [5, 6] 1 0 1 (by norm_num)

/-- C9: when `SamplePlayer::next` finds neither a current nor a next frame at
the resolved sample index (end of data), it hard-stops in that same call: the
held MIDI note is cleared, the ADSR is reset to Idle, and the call returns
0.0. -/
theorem C9_end_of_data_hard_stop (powf : ℚ → ℚ) (s : SamplePlayer)
    (process_count : ℚ) (channel_index : ℕ) (buf : List ℚ) (i : ℕ)
    (hbuf : s.get_buffer_if_not_silent = some buf)
    (hidx : s.final_sample_index powf process_count channel_index = some i)
    (hnone : buf.get? i = none) :
    s.next powf process_count channel_index =
      (0, { s with midi_note := none, adsr := s.adsr.reset }) ∧
    ({ s with midi_note := none, adsr := s.adsr.reset } :
        SamplePlayer).midi_note = none ∧
    ({ s with midi_note := none, adsr := s.adsr.reset } :
        SamplePlayer).adsr.stage = AdsrStage.Idle := by
  refine ⟨?_, rfl, rfl⟩
  unfold SamplePlayer.next
  rw [hbuf]
  dsimp only
  rw [hidx]
  dsimp only
  rw [hnone]

/-- Witness for C9: a one-sample mono buffer read at frame 5, past its end:
the call returns 0, clears the note and resets the ADSR to Idle. -/
theorem C9_end_of_data_hard_stop_witness :
    SamplePlayer.next (fun _ => 1)
      ⟨⟨false, false, 1, 0, 0, 0, 0, 1, 0, 0, BlendGroup.None⟩, 0, 0,
        some [1], 1, 1, some 0, 1, 1, ⟨1, 0, 0, AdsrStage.Attack⟩⟩ 5 0 =
      (0, ⟨⟨false, false, 1, 0, 0, 0, 0, 1, 0, 0, BlendGroup.None⟩, 0, 0,
        some [1], 1, 1, none, 1, 1, ⟨1, 0, 0, AdsrStage.Idle⟩⟩) := by
  have hidx : SamplePlayer.final_sample_index (fun _ => 1)
      ⟨⟨false, false, 1, 0, 0, 0, 0, 1, 0, 0, BlendGroup.None⟩, 0, 0,
        some [1], 1, 1, some 0, 1, 1, ⟨1, 0, 0, AdsrStage.Attack⟩⟩ 5 0 =
      some 5 := by
    unfold SamplePlayer.final_sample_index SamplePlayer.get_playback_position
      SamplePlayer.get_sr_correction SamplePlayer.get_playback_rate
      get_stretch_playback_position ratToUsize ratFract ratTrunc
    norm_num
    rfl
  exact (C9_end_of_data_hard_stop (fun _ => 1)
    ⟨⟨false, false, 1, 0, 0, 0, 0, 1, 0, 0, BlendGroup.None⟩, 0, 0,
      some [1], 1, 1, some 0, 1, 1, ⟨1, 0, 0, AdsrStage.Attack⟩⟩ 5 0 [1] 5
    rfl hidx rfl).1

/-- C10: when `is_tonal` is false, `SamplePlayer::get_playback_rate` equals
`powf(semitone_offset / 12)` — `powf` standing for the external `f32`
intrinsic `x ↦ 2^x` — and is independent of both the held MIDI note and the
`root_note` parameter: any state differing only in `midi_note` and/or
`root_note` yields the same rate, for every interpretation of `powf`. -/
theorem C10_playback_rate_atonal (powf : ℚ → ℚ) (s : SamplePlayer)
    (h : s.params.is_tonal = false) :
    s.get_playback_rate powf = powf ((s.params.semitone_offset : ℚ) / 12) ∧
    ∀ (note : Option ℤ) (root : ℤ),
      SamplePlayer.get_playback_rate powf
          { s with midi_note := note, params := { s.params with root_note := root } } =
        s.get_playback_rate powf := by
  have key : ∀ (note : Option ℤ) (root : ℤ),
      SamplePlayer.get_playback_rate powf
          { s with midi_note := note, params := { s.params with root_note := root } } =
        powf ((s.params.semitone_offset : ℚ) / 12) := by
    intro note root
    unfold SamplePlayer.get_playback_rate
    dsimp only
    rw [if_neg (by simp [h])]
    norm_num
  have hself : s.get_playback_rate powf =
      powf ((s.params.semitone_offset : ℚ) / 12) := by
    unfold SamplePlayer.get_playback_rate
    dsimp only
    rw [if_neg (by simp [h])]
    norm_num
  exact ⟨hself, fun note root => (key note root).trans hself.symm⟩

/-- Witness for C10 at a concrete non-tonal player whose `midi_note` and
`root_note` are then replaced. -/
theorem C10_playback_rate_atonal_witness :
    SamplePlayer.get_playback_rate (fun x => x + 1)
        ⟨⟨false, false, 1, 3, 6, 0, 0, 1, 0, 0, BlendGroup.None⟩, 0, 0,
          some [1], 1, 1, some 7, 1, 1, ⟨1, 0, 0, AdsrStage.Idle⟩⟩ =
      (fun x : ℚ => x + 1) (((6 : ℤ) : ℚ) / 12) ∧
    ∀ (note : Option ℤ) (root : ℤ),
      SamplePlayer.get_playback_rate (fun x => x + 1)
          ⟨⟨false, false, 1, root, 6, 0, 0, 1, 0, 0, BlendGroup.None⟩, 0, 0,
            some [1], 1, 1, note, 1, 1, ⟨1, 0, 0, AdsrStage.Idle⟩⟩ =
        SamplePlayer.get_playback_rate (fun x => x + 1)
          ⟨⟨false, false, 1, 3, 6, 0, 0, 1, 0, 0, BlendGroup.None⟩, 0, 0,
            some [1], 1, 1, some 7, 1, 1, ⟨1, 0, 0, AdsrStage.Idle⟩⟩ :=
  C10_playback_rate_atonal (fun x => x + 1)
    ⟨⟨false, false, 1, 3, 6, 0, 0, 1, 0, 0, BlendGroup.None⟩, 0, 0,
      some [1], 1, 1, some 7, 1, 1, ⟨1, 0, 0, AdsrStage.Idle⟩⟩ rfl
